import Mathlib

/-!
Verification of the SearchQueryParser library (Filter, FilterGroup,
SearchQueryParser) against its natural-language specification.

The embedding translates the JavaScript/TypeScript source faithfully:
strings are Lean strings, JS string helpers (toLowerCase, trim, includes)
are modelled character-by-character, records are association lists of
string keys to JS-like values, and the recursive-descent parser is
modelled with explicit fuel together with a proof that the fuel bound
always suffices.
-/

namespace SQP

/-- JS value stored in a record property: a string, an array, or anything
else (number, object, ...).  Array elements may themselves be arbitrary
values; the source filters array elements by runtime string checks. -/
inductive Value where
  | str : String → Value
  | arr : List Value → Value
  | other : Value

/-- A record ("entry") handed to matchesEntry: a JS object modelled as an
association list from property names to values, in property order. -/
abbrev Entry := List (String × Value)

/-- JS property read entry[k]: the value stored under the exact key k. -/
def Entry.get (e : Entry) (k : String) : Option Value :=
  (e.find? (fun p => p.fst == k)).map Prod.snd

/-- Model of JS String.prototype.toLowerCase (ASCII letters). -/
def lower (s : String) : String := ⟨s.data.map Char.toLower⟩

/-- Model of JS String.prototype.trim on a character list. -/
def trimList (l : List Char) : List Char :=
  ((l.dropWhile Char.isWhitespace).reverse.dropWhile Char.isWhitespace).reverse

/-- Model of JS String.prototype.trim. -/
def jsTrim (s : String) : String := ⟨trimList s.data⟩

/-- Helper for JS String.prototype.includes: does the character list s
contain sub as a contiguous run. -/
def containsSub (sub : List Char) : List Char → Bool
  | [] => sub.isEmpty
  | c :: rest => sub.isPrefixOf (c :: rest) || containsSub sub rest

/-- Model of JS s.includes(t). -/
def strIncludes (s t : String) : Bool := containsSub t.data s.data

/-- A single filter element like fieldname:term (class Filter of the
source).  field is null (none) to match any field; operator is the raw
operator string, ":" for contains and "=" for exact match. -/
structure Filter where
  field : Option String
  term : String
  operator : String
deriving DecidableEq, Repr

/-- Filter.equals of the source: component-wise comparison. -/
def Filter.equals (a b : Filter) : Bool :=
  a.field == b.field && a.term == b.term && a.operator == b.operator

/-- JS regex dot: any character except a line terminator. -/
def dotChar (c : Char) : Bool :=
  c ≠ '\n' && c ≠ '\r' && c ≠ '\u2028' && c ≠ '\u2029'

/-- All characters usable by the regex dot. -/
def allDot (l : List Char) : Bool := l.all dotChar

/-- JS \w word character: ASCII letter, digit or underscore. -/
def wordChar (c : Char) : Bool := c.isAlphanum || c = '_'

/-- The lazy group of the source regex: matching (.+?)"?$ against r and
returning the capture.  The lazy quantifier prefers the shortest capture,
so a trailing double quote is left to the final "? whenever possible. -/
def lazyCore (r : List Char) : Option (List Char) :=
  if r.isEmpty then none
  else if 2 ≤ r.length && r.getLast? == some '"' then
    (if allDot r.dropLast then some r.dropLast else none)
  else if allDot r then some r else none

/-- Matching "?(.+?)"?$ of the source regex against rest: the greedy
leading "? consumes an initial double quote when the remainder still
matches, otherwise backtracks to consuming nothing. -/
def regexRestTerm (rest : List Char) : Option (List Char) :=
  if rest.head? == some '"' then
    match lazyCore (rest.drop 1) with
    | some t => some t
    | none => lazyCore rest
  else lazyCore rest

/-- Model of JS s.startsWith(c) for a single character. -/
def headIs (s : String) (c : Char) : Bool :=
  match s.data with
  | [] => false
  | d :: _ => d == c

/-- Model of JS s.endsWith(c) for a single character. -/
def lastIs (s : String) (c : Char) : Bool := s.data.getLast? == some c

/-- Model of JS s.slice(1): drop the first character. -/
def strTail (s : String) : String := ⟨s.data.drop 1⟩

/-- Model of JS s.slice(1, -1): drop the first and last characters. -/
def strInner (s : String) : String := ⟨(s.data.drop 1).dropLast⟩

/-- The two fall-through branches of Filter.parse: a token wrapped in
double quotes is unquoted, anything else is taken verbatim; both give a
fieldless contains filter. -/
def Filter.parseFallback (t : String) : Filter :=
  if headIs t '"' && lastIs t '"' then
    Filter.mk none (strInner t) ":"
  else
    Filter.mk none t ":"

/-- Filter.parse of the source: try the anchored regex
(\w+)([:=])"?(.+?)"?$ first; the greedy \w+ forces the field to be the
maximal word prefix followed directly by the operator character. -/
def Filter.parse (t : String) : Filter :=
  let fieldChars := t.data.takeWhile wordChar
  match t.data.dropWhile wordChar with
  | op :: rest =>
    if !fieldChars.isEmpty && (op = ':' || op = '=') then
      match regexRestTerm rest with
      | some termChars =>
        Filter.mk (some ⟨fieldChars⟩) ⟨termChars⟩ (String.singleton op)
      | none => Filter.parseFallback t
    else Filter.parseFallback t
  | [] => Filter.parseFallback t

/-- Filter.toString of the source. -/
def Filter.toString (f : Filter) : String :=
  let pre := match f.field with
    | some fld => fld ++ f.operator
    | none => ""
  let term := if strIncludes (jsTrim f.term) " " then "\"" ++ f.term ++ "\"" else f.term
  pre ++ term

/-- Filter.matchField of the source: lowercase both sides, then exact
equality for operator "=" and substring containment otherwise. -/
def Filter.matchField (f : Filter) (value : String) : Bool :=
  if f.operator == "=" then lower value == lower f.term
  else strIncludes (lower value) (lower f.term)

/-- JS truthiness of the field: null and the empty string are falsy. -/
def fieldFalsy : Option String → Bool
  | none => true
  | some s => s == ""

/-- The string elements of a record value, as collected by the fieldless
branch of getFields: strings give themselves, arrays keep only their
string elements, anything else contributes nothing. -/
def valueStrings : Value → List String
  | .str s => [s]
  | .arr vs => vs.filterMap (fun v => match v with | .str s => some s | _ => none)
  | .other => []

/-- Filter.getFields of the source: with no (truthy) field, flatten all
string/array-of-string property values, drop empty strings
(.filter(Boolean)) and lowercase; with a field, read the property stored
under the lowercased field name. -/
def Filter.getFields (f : Filter) (entry : Entry) : List String :=
  if fieldFalsy f.field then
    ((((entry.map Prod.snd).map valueStrings).flatten).filter (fun s => s != "")).map lower
  else
    match f.field with
    | some fld =>
      match Entry.get entry (lower fld) with
      | some (.arr vs) =>
        (vs.filterMap (fun v => match v with | .str s => some s | _ => none)).map lower
      | some (.str s) => [lower s]
      | _ => []
    | none => []

/-- Filter.matchEntry of the source. -/
def Filter.matchEntry (f : Filter) (entry : Entry) : Bool :=
  (f.getFields entry).any (fun v => f.matchField v)

mutual
/-- A tree item: a leaf Filter or a nested FilterGroup. -/
inductive FilterItem where
  | leaf : Filter → FilterItem
  | group : FilterGroup → FilterItem

/-- class FilterGroup of the source: a mode ("AND" or "OR"), an include
list and an exclude list. -/
inductive FilterGroup where
  | mk : String → List FilterItem → List FilterItem → FilterGroup
end

/-- The mode field of a FilterGroup. -/
def FilterGroup.mode : FilterGroup → String
  | .mk m _ _ => m

/-- The include list of a FilterGroup. -/
def FilterGroup.includeItems : FilterGroup → List FilterItem
  | .mk _ inc _ => inc

/-- The exclude list of a FilterGroup. -/
def FilterGroup.excludeItems : FilterGroup → List FilterItem
  | .mk _ _ exc => exc

/-- FilterGroup.add of the source: push onto the selected list. -/
def FilterGroup.add (g : FilterGroup) (item : FilterItem) (isExclude : Bool) : FilterGroup :=
  match g with
  | .mk m inc exc =>
    if isExclude then .mk m inc (exc ++ [item]) else .mk m (inc ++ [item]) exc

/-- FilterGroup.addWithMode of the source: when adding to the include
list under a different mode, move the existing include list into a fresh
subgroup carrying the old mode, then add normally. -/
def FilterGroup.addWithMode (g : FilterGroup) (item : FilterItem) (mode : String)
    (isExclude : Bool) : FilterGroup :=
  let g' := match g with
    | .mk m inc exc =>
      if !isExclude && m != mode then
        FilterGroup.mk mode [FilterItem.group (.mk m inc [])] exc
      else FilterGroup.mk m inc exc
  g'.add item isExclude

/-- FilterGroup.remove of the source.  The JS filter callback returns
undefined (falsy) for items that are not Filter instances, so group items
are dropped along with leaves equal to the argument. -/
def FilterGroup.remove (g : FilterGroup) (filter : Filter) (isExclude : Bool) : FilterGroup :=
  match g with
  | .mk m inc exc =>
    let keep := fun (item : FilterItem) => match item with
      | .leaf f => !(f.equals filter)
      | .group _ => false
    if isExclude then .mk m inc (exc.filter keep) else .mk m (inc.filter keep) exc

mutual
/-- Dispatch of the local match closure in matchesEntry: groups recurse,
leaves use matchEntry. -/
def FilterItem.matches : FilterItem → Entry → Bool
  | .leaf f, e => f.matchEntry e
  | .group g, e => g.matchesEntry e

/-- FilterGroup.matchesEntry of the source. -/
def FilterGroup.matchesEntry : FilterGroup → Entry → Bool
  | .mk mode inc exc, e =>
    let includesMatch := if inc.isEmpty then true
      else if mode == "AND" then allMatch inc e else anyMatch inc e
    let excludesMatch := noneMatch exc e
    includesMatch && excludesMatch

/-- this.include.every(match) of the source. -/
def allMatch : List FilterItem → Entry → Bool
  | [], _ => true
  | i :: rest, e => FilterItem.matches i e && allMatch rest e

/-- this.include.some(match) of the source. -/
def anyMatch : List FilterItem → Entry → Bool
  | [], _ => false
  | i :: rest, e => FilterItem.matches i e || anyMatch rest e

/-- this.exclude.every(item => !match(item)) of the source. -/
def noneMatch : List FilterItem → Entry → Bool
  | [], _ => true
  | i :: rest, e => !(FilterItem.matches i e) && noneMatch rest e
end

/-- JS Array.prototype.join with a separator. -/
def joinSep (sep : String) : List String → String
  | [] => ""
  | [x] => x
  | x :: y :: rest => x ++ sep ++ joinSep sep (y :: rest)

mutual
/-- The itemMapper closure of FilterGroup.toString: a nested group is
wrapped in parentheses only when its surrounding list has more than one
item; the wrap flag records that length test. -/
def itemMapper : FilterItem → Bool → String
  | .leaf f, _ => f.toString
  | .group g, wrap => if wrap then "(" ++ g.toString ++ ")" else g.toString

/-- Mapping itemMapper over a list of items. -/
def renderList : List FilterItem → Bool → List String
  | [], _ => []
  | i :: rest, wrap => itemMapper i wrap :: renderList rest wrap

/-- FilterGroup.toString of the source. -/
def FilterGroup.toString : FilterGroup → String
  | .mk mode inc exc =>
    let joiner := if mode == "AND" then " " else "~"
    let includes := joinSep joiner (renderList inc (decide (1 < inc.length)))
    let excludes := joinSep " "
      ((renderList exc (decide (1 < exc.length))).map (fun s => "-" ++ s))
    joinSep " " ([includes, excludes].filter (fun s => s != ""))
end

/-- The buffer flush of tokenize: push the trimmed buffer when the
trimmed buffer is a nonempty (truthy) string. -/
def emitBuffer (buffer : List Char) : List String :=
  if (trimList buffer).isEmpty then [] else [(⟨trimList buffer⟩ : String)]

/-- The character scan of SearchQueryParser.tokenize, carried out on the
remaining characters with the current buffer and inQuotes flag. -/
def tokenizeAux : List Char → List Char → Bool → List String
  | [], buffer, _ => emitBuffer buffer
  | c :: rest, buffer, inQuotes =>
    if c = '"' then tokenizeAux rest (buffer ++ [c]) (!inQuotes)
    else if !inQuotes && (c = '(' || c = ')' || c = '~' || c = ' ') then
      emitBuffer buffer ++
      (if c ≠ ' ' then [String.singleton c] else []) ++
      tokenizeAux rest [] inQuotes
    else tokenizeAux rest (buffer ++ [c]) inQuotes

/-- SearchQueryParser.tokenize of the source. -/
def tokenize (query : String) : List String := tokenizeAux query.data [] false

/-- Replace the mode of a group (the group.mode assignments of
parseTokens). -/
def FilterGroup.setMode : FilterGroup → String → FilterGroup
  | .mk _ inc exc, m => .mk m inc exc

/-- The loop body of the non-structural token branch of parseTokens. -/
def leafStep (g : FilterGroup) (token : String) : FilterGroup :=
  let isExclude := headIs token '-'
  let raw := if isExclude then strTail token else token
  g.add (FilterItem.leaf (Filter.parse raw)) isExclude

/-- SearchQueryParser.parseTokens of the source, with explicit fuel: one
unit of fuel is spent per call, and parseLoop_fuel_isSome below shows the
fuel bound used by parseTokens always suffices, so the fuel is only a
Lean-side termination device. -/
def parseLoop : Nat → List String → Nat → FilterGroup → String → Option (FilterGroup × Nat)
  | 0, _, _, _, _ => none
  | fuel + 1, tokens, i, group, currentMode =>
    match tokens.get? i with
    | none => some (group.setMode currentMode, tokens.length)
    | some token =>
      if token = "~" then parseLoop fuel tokens (i + 1) group "OR"
      else if token = "(" then
        match parseLoop fuel tokens (i + 1) (FilterGroup.mk "AND" [] []) "AND" with
        | none => none
        | some (subgroup, nextIndex) =>
          parseLoop fuel tokens (nextIndex + 1)
            (group.add (FilterItem.group subgroup) false) currentMode
      else if token = ")" then some (group.setMode currentMode, i)
      else parseLoop fuel tokens (i + 1) (leafStep group token) currentMode

/-- SearchQueryParser.parseTokens: run the fuelled loop with enough fuel. -/
def parseTokens (tokens : List String) (start : Nat) : FilterGroup × Nat :=
  (parseLoop (tokens.length - start + 1) tokens start
    (FilterGroup.mk "AND" [] []) "AND").getD (FilterGroup.mk "AND" [] [], tokens.length)

/-- SearchQueryParser.parseQuery of the source. -/
def parseQuery (query : String) : FilterGroup :=
  (parseTokens (tokenize query) 0).1

/-! ## Bridging lemmas for the evaluator -/

theorem allMatch_eq (l : List FilterItem) (e : Entry) :
    allMatch l e = l.all (fun i => FilterItem.matches i e) := by
  induction l with
  | nil => simp [allMatch]
  | cons i rest ih => simp [allMatch, ih]

theorem anyMatch_eq (l : List FilterItem) (e : Entry) :
    anyMatch l e = l.any (fun i => FilterItem.matches i e) := by
  induction l with
  | nil => simp [anyMatch]
  | cons i rest ih => simp [anyMatch, ih]

theorem noneMatch_eq (l : List FilterItem) (e : Entry) :
    noneMatch l e = l.all (fun i => !(FilterItem.matches i e)) := by
  induction l with
  | nil => simp [noneMatch]
  | cons i rest ih => simp [noneMatch, ih]

/-- C1: a group matches exactly when its include side matches (vacuously
true on an empty include list, conjunction in AND mode, disjunction
otherwise) and none of its exclude items matches; the exclude side does
not consult the group's mode. -/
theorem matchesEntry_spec (g : FilterGroup) (e : Entry) :
    g.matchesEntry e =
      ((if g.includeItems.isEmpty then true
        else if g.mode == "AND" then g.includeItems.all (fun i => FilterItem.matches i e)
        else g.includeItems.any (fun i => FilterItem.matches i e))
       && g.excludeItems.all (fun i => !(FilterItem.matches i e))) := by
  cases g with
  | mk m inc exc =>
    simp only [FilterGroup.matchesEntry, FilterGroup.includeItems, FilterGroup.excludeItems,
      FilterGroup.mode, allMatch_eq, anyMatch_eq, noneMatch_eq]

/-! ## Lowercasing lemmas -/

theorem toLower_ofNat_lower_range (n : Nat) (h1 : 97 ≤ n) (h2 : n ≤ 122) :
    Char.toLower (Char.ofNat n) = Char.ofNat n := by
  interval_cases n <;> decide

theorem toLower_toLower (c : Char) : c.toLower.toLower = c.toLower := by
  by_cases h : c.toNat ≥ 65 ∧ c.toNat ≤ 90
  · have hc : Char.toLower c = Char.ofNat (c.toNat + 32) := by
      unfold Char.toLower
      rw [if_pos h]
    rw [hc]
    exact toLower_ofNat_lower_range _ (by omega) (by omega)
  · have hc : Char.toLower c = c := by
      unfold Char.toLower
      rw [if_neg h]
    rw [hc]
    exact hc

theorem lower_idem (s : String) : lower (lower s) = lower s := by
  cases s with
  | mk l =>
    simp only [lower, List.map_map]
    congr 1
    induction l with
    | nil => rfl
    | cons c rest ih => simp [Function.comp, toLower_toLower, ih]

theorem lower_eq_empty_iff (s : String) : lower s = "" ↔ s = "" := by
  constructor
  · intro h
    have hd : s.data.map Char.toLower = [] := by
      have := congrArg String.data h
      simpa [lower] using this
    have hnil : s.data = [] := List.map_eq_nil_iff.mp hd
    cases s
    simp only at hnil
    rw [hnil]
  · intro h
    rw [h]
    rfl

/-- C9: empty strings are dropped from the candidate values of a
fieldless filter (so a fieldless exact-match filter with empty term never
matches), while a field lookup that finds the empty string keeps it as a
candidate (so a field-scoped exact-match filter with empty term matches
such a record). -/
theorem empty_string_candidates :
    (∀ (term op : String) (e : Entry), "" ∉ (Filter.mk none term op).getFields e)
    ∧ (∀ e : Entry, (Filter.mk none "" "=").matchEntry e = false)
    ∧ (∀ (fld : String) (e : Entry), fld ≠ "" →
        Entry.get e (lower fld) = some (Value.str "") →
        (Filter.mk (some fld) "" "=").matchEntry e = true) := by
  have hmem : ∀ (term op : String) (e : Entry), "" ∉ (Filter.mk none term op).getFields e := by
    intro term op e hmem
    simp only [Filter.getFields, fieldFalsy, if_pos] at hmem
    obtain ⟨x, hx, hlx⟩ := List.mem_map.mp hmem
    have hxne : x ≠ "" := by
      have := List.of_mem_filter hx
      simpa using this
    exact hxne ((lower_eq_empty_iff x).mp hlx)
  refine ⟨hmem, ?_, ?_⟩
  · intro e
    simp only [Filter.matchEntry, List.any_eq_false]
    intro v hv
    simp only [Filter.matchField, beq_iff_eq, if_pos]
    have hvne : v ≠ "" := fun hc => hmem "" "=" e (hc ▸ hv)
    have : lower v ≠ "" := fun hc => hvne ((lower_eq_empty_iff v).mp hc)
    simp only [beq_eq_false_iff_ne, ne_eq]
    intro hc
    exact this (by simpa [lower] using hc)
  · intro fld e hfld hget
    have hfalsy : fieldFalsy (some fld) = false := by
      simp [fieldFalsy, hfld]
    simp only [Filter.matchEntry, Filter.getFields, hfalsy, Bool.false_eq_true, if_neg,
      not_false_iff, hget]
    simp [Filter.matchField, lower]

/-- Witness for empty_string_candidates at a concrete record. -/
theorem empty_string_candidates_witness :
    ("f" ≠ "" ∧ Entry.get [("f", Value.str "")] (lower "f") = some (Value.str "")) ∧
      (Filter.mk (some "f") "" "=").matchEntry [("f", Value.str "")] = true :=
  ⟨⟨by decide, rfl⟩,
    empty_string_candidates.2.2 "f" [("f", Value.str "")] (by decide) rfl⟩

/-- C10: adding to the exclude list via addWithMode never restructures
the group, whatever mode is requested: the include list and mode are kept
and the item is appended to the exclude list; and with matching modes no
restructuring happens on the include side either, so the subgroup
promotion is confined to isExclude = false with differing modes. -/
theorem addWithMode_exclude_frame :
    (∀ (g : FilterGroup) (item : FilterItem) (mode : String),
      g.addWithMode item mode true =
        FilterGroup.mk g.mode g.includeItems (g.excludeItems ++ [item]))
    ∧ (∀ (g : FilterGroup) (item : FilterItem) (mode : String), g.mode = mode →
      g.addWithMode item mode false =
        FilterGroup.mk g.mode (g.includeItems ++ [item]) g.excludeItems) := by
  constructor
  · intro g item mode
    cases g with
    | mk m inc exc =>
      simp [FilterGroup.addWithMode, FilterGroup.add, FilterGroup.mode,
        FilterGroup.includeItems, FilterGroup.excludeItems]
  · intro g item mode hmode
    cases g with
    | mk m inc exc =>
      simp only [FilterGroup.mode] at hmode
      simp [FilterGroup.addWithMode, FilterGroup.add, FilterGroup.mode,
        FilterGroup.includeItems, FilterGroup.excludeItems, hmode]

/-- Witness for addWithMode_exclude_frame at concrete groups. -/
theorem addWithMode_exclude_frame_witness :
    (FilterGroup.mk "AND" [] []).mode = "AND" ∧
      (FilterGroup.mk "AND" [] []).addWithMode (FilterItem.leaf (Filter.mk none "a" ":"))
          "AND" false =
        FilterGroup.mk "AND" [FilterItem.leaf (Filter.mk none "a" ":")] [] :=
  ⟨rfl, addWithMode_exclude_frame.2 (FilterGroup.mk "AND" [] [])
    (FilterItem.leaf (Filter.mk none "a" ":")) "AND" rfl⟩

/-- C7: evaluating remove on a concrete group shows that, besides the
leaf filters equal to the argument, every nested FilterGroup of the
selected list is dropped as well (the JS filter callback returns
undefined for non-Filter items), while non-matching leaves and the other
list survive. -/
theorem remove_drops_group_items :
    (FilterGroup.mk "AND"
        [FilterItem.leaf (Filter.mk none "a" ":"),
         FilterItem.leaf (Filter.mk none "x" ":"),
         FilterItem.group (FilterGroup.mk "OR" [FilterItem.leaf (Filter.mk none "b" ":")] [])]
        [FilterItem.leaf (Filter.mk none "x" ":")]).remove (Filter.mk none "x" ":") false =
      FilterGroup.mk "AND" [FilterItem.leaf (Filter.mk none "a" ":")]
        [FilterItem.leaf (Filter.mk none "x" ":")] := by
  rfl

/-- C2 counterexample: the field lookup is not case-insensitive on the
record side.  A record key differing from the filter field only in case
(key Name, field name) is not found, while the lowercased filter field
does find an exactly lowercase record key (key name, field Name). -/
theorem matchEntry_field_case_counterexample :
    (Filter.mk (some "name") "bob" ":").matchEntry [("Name", Value.str "Bob")] = false
    ∧ (Filter.mk (some "Name") "bob" ":").matchEntry [("name", Value.str "Bob")] = true := by
  exact ⟨rfl, rfl⟩

/-- C2 (amended): field lookup lowercases the filter field and then
requires an exact key match.  The case of the filter field is irrelevant;
a record with no key equal to the lowercased field never matches; and
when the key equal to the lowercased field holds a string, the filter is
tested against exactly that string. -/
theorem matchEntry_lowercase_lookup :
    (∀ (fld term op : String) (e : Entry), fld ≠ "" →
      (Filter.mk (some fld) term op).matchEntry e =
        (Filter.mk (some (lower fld)) term op).matchEntry e)
    ∧ (∀ (fld term op : String) (e : Entry), fld ≠ "" →
      (∀ p ∈ e, p.1 ≠ lower fld) →
      (Filter.mk (some fld) term op).matchEntry e = false)
    ∧ (∀ (fld term op s : String) (e : Entry), fld ≠ "" →
      Entry.get e (lower fld) = some (Value.str s) →
      (Filter.mk (some fld) term op).matchEntry e =
        (Filter.mk (some fld) term op).matchField s) := by
  have hfalsy : ∀ fld : String, fld ≠ "" → fieldFalsy (some fld) = false := by
    intro fld h
    simp [fieldFalsy, h]
  have hfalsy2 : ∀ fld : String, fld ≠ "" → fieldFalsy (some (lower fld)) = false := by
    intro fld h
    have : lower fld ≠ "" := fun hc => h ((lower_eq_empty_iff fld).mp hc)
    simp [fieldFalsy, this]
  refine ⟨?_, ?_, ?_⟩
  · intro fld term op e hfld
    simp only [Filter.matchEntry, Filter.getFields, hfalsy fld hfld, hfalsy2 fld hfld,
      Bool.false_eq_true, if_neg, not_false_iff, lower_idem]
    rfl
  · intro fld term op e hfld hkeys
    have hfind : List.find? (fun p => p.1 == lower fld) e = none := by
      rw [List.find?_eq_none]
      intro p hp
      simpa using hkeys p hp
    have hget : Entry.get e (lower fld) = none := by
      simp [Entry.get, hfind]
    simp [Filter.matchEntry, Filter.getFields, hfalsy fld hfld, hget]
  · intro fld term op s e hfld hget
    simp only [Filter.matchEntry, Filter.getFields, hfalsy fld hfld, Bool.false_eq_true,
      if_neg, not_false_iff, hget, List.any_cons, List.any_nil, Bool.or_false]
    cases hop : op == "="
    all_goals simp [Filter.matchField, lower_idem, hop]

/-- Witness for matchEntry_lowercase_lookup: filter field Name finds the
lowercase record key name. -/
theorem matchEntry_lowercase_lookup_witness :
    ("Name" ≠ "" ∧ Entry.get [("name", Value.str "Bob")] (lower "Name") =
        some (Value.str "Bob")) ∧
      (Filter.mk (some "Name") "bob" ":").matchEntry [("name", Value.str "Bob")] =
        (Filter.mk (some "Name") "bob" ":").matchField "Bob" :=
  ⟨⟨by decide, rfl⟩,
    matchEntry_lowercase_lookup.2.2 "Name" "bob" ":" "Bob" [("name", Value.str "Bob")]
      (by decide) rfl⟩

/-! ## Tokenizer lemmas -/

theorem ne_empty_of_mem_emitBuffer (b : List Char) (t : String) (h : t ∈ emitBuffer b) :
    t ≠ "" := by
  unfold emitBuffer at h
  split at h
  · simp at h
  · next hne =>
    simp only [List.mem_singleton] at h
    subst h
    intro hc
    have hd := congrArg String.data hc
    simp only at hd
    exact hne (by simp [hd])

theorem singleton_ne_empty (c : Char) : String.singleton c ≠ "" := by
  intro hc
  have hd := congrArg String.data hc
  simp [String.singleton] at hd

theorem ne_empty_of_mem_tokenizeAux :
    ∀ (chars buffer : List Char) (inQ : Bool) (t : String),
      t ∈ tokenizeAux chars buffer inQ → t ≠ "" := by
  intro chars
  induction chars with
  | nil =>
    intro buffer inQ t h
    exact ne_empty_of_mem_emitBuffer _ _ h
  | cons c rest ih =>
    intro buffer inQ t h
    simp only [tokenizeAux] at h
    split at h
    · exact ih _ _ _ h
    · split at h
      · rcases List.mem_append.mp h with h1 | h1
        · rcases List.mem_append.mp h1 with h2 | h2
          · exact ne_empty_of_mem_emitBuffer _ _ h2
          · split at h2
            · simp only [List.mem_singleton] at h2
              subst h2
              exact singleton_ne_empty c
            · simp at h2
        · exact ih _ _ _ h1
      · exact ih _ _ _ h

/-- C4: the tokenizer never emits an empty token (consecutive spaces and
blank buffers produce nothing); structural characters outside quotes are
emitted as their own single-character tokens next to the flushed buffer,
so (hello) splits into three tokens; quoted regions keep structural
characters and spaces inside one buffered token; a trailing buffer is
flushed at end of input. -/
theorem tokenize_spec :
    (∀ (q t : String), t ∈ tokenize q → t ≠ "")
    ∧ tokenize "(hello)" = ["(", "hello", ")"]
    ∧ tokenize "a  b" = ["a", "b"]
    ∧ tokenize "\"(a ~)\" c" = ["\"(a ~)\"", "c"]
    ∧ tokenize "ab" = ["ab"] := by
  refine ⟨?_, by decide, by decide, by decide, by decide⟩
  intro q t h
  exact ne_empty_of_mem_tokenizeAux _ _ _ _ h

/-- Witness for the nonempty-token part of tokenize_spec. -/
theorem tokenize_spec_witness :
    "hello" ∈ tokenize "(hello)" ∧ "hello" ≠ "" :=
  ⟨by decide, tokenize_spec.1 "(hello)" "hello" (by decide)⟩

/-! ## Parser termination -/

theorem parseLoop_index_bounds :
    ∀ (fuel : Nat) (tokens : List String) (i : Nat) (g : FilterGroup) (m : String)
      (g' : FilterGroup) (k : Nat),
      parseLoop fuel tokens i g m = some (g', k) →
      k ≤ tokens.length ∧ min i tokens.length ≤ k := by
  intro fuel
  induction fuel with
  | zero =>
    intro tokens i g m g' k h
    simp [parseLoop] at h
  | succ f ih =>
    intro tokens i g m g' k h
    rw [parseLoop] at h
    split at h
    · simp only [Option.some.injEq, Prod.mk.injEq] at h
      omega
    · next token hg =>
      have hi : i < tokens.length := by
        by_contra hc
        rw [List.get?_eq_none.mpr (by omega)] at hg
        exact Option.noConfusion hg
      split at h
      · have := ih tokens (i + 1) g "OR" g' k h
        omega
      · split at h
        · split at h
          · exact Option.noConfusion h
          · next sub next hsub =>
            have hb1 := ih tokens (i + 1) (FilterGroup.mk "AND" [] []) "AND" sub next hsub
            have hb2 := ih tokens (next + 1) (g.add (FilterItem.group sub) false) m g' k h
            omega
        · split at h
          · simp only [Option.some.injEq, Prod.mk.injEq] at h
            omega
          · have := ih tokens (i + 1) (leafStep g token) m g' k h
            omega

theorem parseLoop_fuel_suffices :
    ∀ (n fuel : Nat) (tokens : List String) (i : Nat) (g : FilterGroup) (m : String),
      tokens.length - i < n → tokens.length - i + 1 ≤ fuel →
      (parseLoop fuel tokens i g m).isSome = true := by
  intro n
  induction n with
  | zero =>
    intro fuel tokens i g m hn
    omega
  | succ n ih =>
    intro fuel tokens i g m hn hfuel
    cases fuel with
    | zero => omega
    | succ f =>
      rw [parseLoop]
      split
      · simp
      · next token hg =>
        have hi : i < tokens.length := by
          by_contra hc
          rw [List.get?_eq_none.mpr (by omega)] at hg
          exact Option.noConfusion hg
        split
        · exact ih f tokens (i + 1) g "OR" (by omega) (by omega)
        · split
          · have hsubSome := ih f tokens (i + 1) (FilterGroup.mk "AND" [] []) "AND"
              (by omega) (by omega)
            cases hsub : parseLoop f tokens (i + 1) (FilterGroup.mk "AND" [] []) "AND" with
            | none =>
              rw [hsub] at hsubSome
              simp at hsubSome
            | some r =>
              obtain ⟨sub, next⟩ := r
              have hb := parseLoop_index_bounds f tokens (i + 1)
                (FilterGroup.mk "AND" [] []) "AND" sub next hsub
              exact ih f tokens (next + 1) (g.add (FilterItem.group sub) false) m
                (by omega) (by omega)
          · split
            · simp
            · exact ih f tokens (i + 1) (leafStep g token) m (by omega) (by omega)

/-- C8: the recursive token parser is total: with the fuel bound used by
parseTokens (one more unit than the number of remaining tokens), the loop
always returns a group and an end index, for every token list, every
start position and every accumulated state, so parseQuery returns a
FilterGroup for every input string. -/
theorem parseLoop_total (tokens : List String) (start : Nat) (g : FilterGroup) (m : String) :
    (parseLoop (tokens.length - start + 1) tokens start g m).isSome = true :=
  parseLoop_fuel_suffices (tokens.length - start + 1) (tokens.length - start + 1)
    tokens start g m (by omega) (by omega)

/-! ## Mode resolution at one bracket level -/

theorem setMode_mode (g : FilterGroup) (m : String) : (g.setMode m).mode = m := by
  cases g
  rfl

theorem parseLoop_no_brackets :
    ∀ (fuel : Nat) (tokens : List String) (i : Nat) (g : FilterGroup) (m : String),
      tokens.length - i < fuel →
      (∀ t ∈ tokens.drop i, t ≠ "(" ∧ t ≠ ")") →
      parseLoop fuel tokens i g m =
        some ((((tokens.drop i).filter (fun t => t ≠ "~")).foldl leafStep g).setMode
                (if "~" ∈ tokens.drop i then "OR" else m),
              tokens.length) := by
  intro fuel
  induction fuel with
  | zero =>
    intro tokens i g m hfuel
    omega
  | succ f ih =>
    intro tokens i g m hfuel hno
    rw [parseLoop]
    split
    · next hg =>
      have hlen : tokens.length ≤ i := List.get?_eq_none.mp hg
      have hdrop : tokens.drop i = [] := List.drop_eq_nil_of_le hlen
      simp [hdrop]
    · next token hg =>
      have hi : i < tokens.length := by
        by_contra hc
        rw [List.get?_eq_none.mpr (by omega)] at hg
        exact Option.noConfusion hg
      have htok : tokens[i] = token := by
        have := List.getElem?_eq_some.mp (by rw [← List.get?_eq_getElem?]; exact hg)
        obtain ⟨h1, h2⟩ := this
        exact h2
      have hdrop : tokens.drop i = token :: tokens.drop (i + 1) := by
        rw [List.drop_eq_getElem_cons hi, htok]
      have hnotail : ∀ t ∈ tokens.drop (i + 1), t ≠ "(" ∧ t ≠ ")" := by
        intro t ht
        exact hno t (by rw [hdrop]; exact List.mem_cons_of_mem _ ht)
      have htokno : token ≠ "(" ∧ token ≠ ")" := hno token (by rw [hdrop]; exact List.mem_cons_self _ _)
      by_cases h1 : token = "~"
      · rw [if_pos h1]
        rw [ih tokens (i + 1) g "OR" (by omega) hnotail]
        rw [hdrop, h1]
        simp
      · rw [if_neg h1]
        rw [if_neg (htokno.1), if_neg (htokno.2)]
        rw [ih tokens (i + 1) (leafStep g token) m (by omega) hnotail]
        rw [hdrop]
        have hcons : List.filter (fun t => decide (t ≠ "~")) (token :: tokens.drop (i + 1)) =
            token :: List.filter (fun t => decide (t ≠ "~")) (tokens.drop (i + 1)) := by
          simp [List.filter_cons, h1]
        have hm2 : ("~" ∈ token :: tokens.drop (i + 1)) = ("~" ∈ tokens.drop (i + 1)) := by
          apply propext
          rw [List.mem_cons]
          constructor
          · rintro (hc | hc)
            · exact absurd hc.symm h1
            · exact hc
          · intro hc
            exact Or.inr hc
        rw [hcons, List.foldl_cons]
        simp only [hm2]

/-- C3: at one bracket level all include items share a single mode: with
no bracket tokens in the list, the group returned by parseTokens has mode
OR exactly when a tilde token occurs and mode AND otherwise, and the
concrete queries a b~c and a (b~c) d show that the mode covers all
include items of the level uniformly while tildes inside nested brackets
leave the outer mode alone. -/
theorem parseTokens_level_mode :
    (∀ tokens : List String, "(" ∉ tokens → ")" ∉ tokens →
      (parseTokens tokens 0).1.mode = (if "~" ∈ tokens then "OR" else "AND"))
    ∧ parseQuery "a b~c" =
        FilterGroup.mk "OR"
          [FilterItem.leaf (Filter.mk none "a" ":"),
           FilterItem.leaf (Filter.mk none "b" ":"),
           FilterItem.leaf (Filter.mk none "c" ":")] []
    ∧ parseQuery "a (b~c) d" =
        FilterGroup.mk "AND"
          [FilterItem.leaf (Filter.mk none "a" ":"),
           FilterItem.group (FilterGroup.mk "OR"
             [FilterItem.leaf (Filter.mk none "b" ":"),
              FilterItem.leaf (Filter.mk none "c" ":")] []),
           FilterItem.leaf (Filter.mk none "d" ":")] [] := by
  refine ⟨?_, rfl, rfl⟩
  intro tokens hpar hpar2
  have hno : ∀ t ∈ tokens.drop 0, t ≠ "(" ∧ t ≠ ")" := by
    intro t ht
    rw [List.drop_zero] at ht
    exact ⟨fun hc => hpar (hc ▸ ht), fun hc => hpar2 (hc ▸ ht)⟩
  unfold parseTokens
  rw [parseLoop_no_brackets (tokens.length - 0 + 1) tokens 0 (FilterGroup.mk "AND" [] [])
    "AND" (by omega) hno]
  simp [setMode_mode]

/-- Witness for the general part of parseTokens_level_mode. -/
theorem parseTokens_level_mode_witness :
    ("(" ∉ ["a", "b", "~", "c"] ∧ ")" ∉ ["a", "b", "~", "c"]) ∧
      (parseTokens ["a", "b", "~", "c"] 0).1.mode =
        (if "~" ∈ ["a", "b", "~", "c"] then "OR" else "AND") :=
  ⟨⟨by decide, by decide⟩,
    parseTokens_level_mode.1 ["a", "b", "~", "c"] (by decide) (by decide)⟩

/-! ## Leaf-filter parsing -/

theorem data_append (s t : String) : (s ++ t).data = s.data ++ t.data := by
  cases s
  cases t
  rfl

theorem takeWhile_append_stop (p : Char → Bool) :
    ∀ (l1 : List Char) (c : Char) (l2 : List Char),
      (∀ x ∈ l1, p x = true) → p c = false →
      (l1 ++ c :: l2).takeWhile p = l1 ∧ (l1 ++ c :: l2).dropWhile p = c :: l2 := by
  intro l1
  induction l1 with
  | nil =>
    intro c l2 h1 h2
    simp [List.takeWhile_cons, List.dropWhile_cons, h2]
  | cons a rest ih =>
    intro c l2 h1 h2
    have ha : p a = true := h1 a (List.mem_cons_self a rest)
    have hr := ih c l2 (fun x hx => h1 x (List.mem_cons_of_mem _ hx)) h2
    simp [List.takeWhile_cons, List.dropWhile_cons, ha, hr.1, hr.2]

theorem allDot_of_mem_imp {l : List Char} (h : allDot l = true) :
    ∀ c ∈ l, dotChar c = true := by
  intro c hc
  exact List.all_eq_true.mp h c hc

theorem allDot_tail {c : Char} {l : List Char} (h : allDot (c :: l) = true) :
    allDot l = true := by
  simp only [allDot, List.all_cons, Bool.and_eq_true] at h
  exact h.2

theorem allDot_dropLast {l : List Char} (h : allDot l = true) :
    allDot l.dropLast = true := by
  apply List.all_eq_true.mpr
  intro c hc
  exact allDot_of_mem_imp h c (List.dropLast_subset l hc)

/-- Spec-side description, leading part: strip one leading double quote
when at least one other character follows. -/
def stripLead (r : List Char) : List Char :=
  if (r.head? == some '"') && decide (2 ≤ r.length) then r.drop 1 else r

/-- Spec-side description, trailing part: strip one trailing double quote
when at least one other character precedes. -/
def stripTrail (r : List Char) : List Char :=
  if decide (2 ≤ r.length) && (r.getLast? == some '"') then r.dropLast else r

/-- Spec-side description of the quote stripping performed by the source
regex on the captured remainder: one leading and one trailing double
quote are stripped, each independently of the other. -/
def stripEndsL (r : List Char) : List Char := stripTrail (stripLead r)

/-- String version of stripEndsL. -/
def stripEnds (s : String) : String := ⟨stripEndsL s.data⟩

theorem lazyCore_eq (r : List Char) (hne : r ≠ []) (hdot : allDot r = true) :
    lazyCore r =
      some (if decide (2 ≤ r.length) && (r.getLast? == some '"') then r.dropLast else r) := by
  unfold lazyCore
  rw [if_neg (by simp [hne])]
  by_cases h2 : (decide (2 ≤ r.length) && (r.getLast? == some '"')) = true
  · rw [if_pos h2, if_pos h2, if_pos (allDot_dropLast hdot)]
  · rw [if_neg h2, if_neg h2, if_pos hdot]

theorem regexRestTerm_some (r : List Char) (hne : r ≠ []) (hdot : allDot r = true) :
    regexRestTerm r = some (stripEndsL r) := by
  cases r with
  | nil => exact absurd rfl hne
  | cons c rest =>
    unfold regexRestTerm stripEndsL
    by_cases hc : c = '"'
    · subst hc
      rw [if_pos (by simp)]
      cases rest with
      | nil =>
        simp [lazyCore, allDot, dotChar, stripLead, stripTrail]
      | cons d rest2 =>
        have hdrop : (('"' :: d :: rest2 : List Char)).drop 1 = d :: rest2 := rfl
        rw [hdrop, lazyCore_eq (d :: rest2) (by simp) (allDot_tail hdot)]
        have hlead : stripLead ('"' :: d :: rest2) = d :: rest2 := by
          unfold stripLead
          rw [if_pos (by simp)]
          rfl
        rw [hlead]
        rfl
    · have hlead : stripLead (c :: rest) = c :: rest := by
        unfold stripLead
        rw [if_neg (by simp [hc])]
      rw [if_neg (by simp [hc]), lazyCore_eq (c :: rest) (by simp) hdot, hlead]
      rfl

theorem parse_fallback_of_field_none (t : String) :
    (Filter.parse t).field = none → Filter.parse t = Filter.parseFallback t := by
  simp only [Filter.parse]
  split
  · split
    · split
      · intro hfield
        simp at hfield
      · intro _
        rfl
    · intro _
      rfl
  · intro _
    rfl

theorem parse_word_op_rest (fieldS restS : String) (opc : Char)
    (hf1 : fieldS.data ≠ []) (hf2 : ∀ c ∈ fieldS.data, wordChar c = true)
    (hop : opc = ':' ∨ opc = '=')
    (hr1 : restS.data ≠ []) (hr2 : allDot restS.data = true) :
    Filter.parse (fieldS ++ String.singleton opc ++ restS) =
      Filter.mk (some fieldS) (stripEnds restS) (String.singleton opc) := by
  have hwop : wordChar opc = false := by
    rcases hop with rfl | rfl <;> decide
  have hdata : (fieldS ++ String.singleton opc ++ restS).data
      = fieldS.data ++ opc :: restS.data := by
    rw [data_append, data_append, List.append_assoc]
    rfl
  have htw := takeWhile_append_stop wordChar fieldS.data opc restS.data hf2 hwop
  have hcond : (!(fieldS.data.isEmpty) &&
      (decide (opc = ':') || decide (opc = '='))) = true := by
    have h1 : fieldS.data.isEmpty = false := by
      cases hd : fieldS.data with
      | nil => exact absurd hd hf1
      | cons a l => rfl
    rcases hop with rfl | rfl <;> simp [h1]
  simp only [Filter.parse, hdata, htw.1, htw.2, hcond, if_true,
    regexRestTerm_some restS.data hr1 hr2]
  rfl

/-- C5 counterexample: in name:"abc the quote appears at only one end of
the captured remainder, yet Filter.parse strips it: the parsed term is
abc, not "abc as the claim requires. -/
theorem parse_lone_quote_counterexample :
    Filter.parse "name:\"abc" = Filter.mk (some "name") "abc" ":"
    ∧ ("abc" : String) ≠ "\"abc" := by
  exact ⟨rfl, by decide⟩

/-- C5 (amended): on a regex match the term is the captured remainder
with up to one leading and up to one trailing double quote stripped, each
independently (a lone quote at one end is stripped too, as described by
stripEnds); when the regex does not produce a field, a token wrapped in
double quotes is unquoted and any other token is used verbatim, always as
a fieldless contains filter. -/
theorem parse_quote_stripping :
    (∀ (fieldS restS : String) (opc : Char),
      fieldS.data ≠ [] → (∀ c ∈ fieldS.data, wordChar c = true) →
      (opc = ':' ∨ opc = '=') → restS.data ≠ [] → allDot restS.data = true →
      Filter.parse (fieldS ++ String.singleton opc ++ restS) =
        Filter.mk (some fieldS) (stripEnds restS) (String.singleton opc))
    ∧ (∀ t : String, (Filter.parse t).field = none →
        headIs t '"' = true → lastIs t '"' = true →
        Filter.parse t = Filter.mk none (strInner t) ":")
    ∧ (∀ t : String, (Filter.parse t).field = none →
        (headIs t '"' && lastIs t '"') = false →
        Filter.parse t = Filter.mk none t ":") := by
  refine ⟨parse_word_op_rest, ?_, ?_⟩
  · intro t hfield hh hl
    rw [parse_fallback_of_field_none t hfield]
    unfold Filter.parseFallback
    rw [if_pos (by simp [hh, hl])]
  · intro t hfield hhl
    rw [parse_fallback_of_field_none t hfield]
    unfold Filter.parseFallback
    rw [if_neg (by simp [hhl])]

/-- Witness for parse_quote_stripping at the token name:"abc. -/
theorem parse_quote_stripping_witness :
    (("name" : String).data ≠ [] ∧ (∀ c ∈ ("name" : String).data, wordChar c = true) ∧
      ((':' : Char) = ':' ∨ (':' : Char) = '=') ∧ ("\"abc" : String).data ≠ [] ∧
      allDot ("\"abc" : String).data = true) ∧
      Filter.parse ("name" ++ String.singleton ':' ++ "\"abc") =
        Filter.mk (some "name") (stripEnds "\"abc") (String.singleton ':') :=
  ⟨⟨by decide, by decide, Or.inl rfl, by decide, by decide⟩,
    parse_quote_stripping.1 "name" "\"abc" ':' (by decide) (by decide) (Or.inl rfl)
      (by decide) (by decide)⟩

/-! ## Round-trip: string helpers -/

theorem str_ext {a b : String} (h : a.data = b.data) : a = b := by
  cases a
  cases b
  simp only at h
  rw [h]

theorem str_eq_empty_iff (s : String) : s = "" ↔ s.data = [] := by
  constructor
  · intro h
    rw [h]
  · intro h
    exact str_ext h

theorem str_append_assoc (a b c : String) : a ++ b ++ c = a ++ (b ++ c) := by
  apply str_ext
  simp [data_append]

theorem joinSep_ne_empty (sep : String) :
    ∀ ws : List String, ws ≠ [] → (∀ w ∈ ws, w ≠ "") → joinSep sep ws ≠ "" := by
  intro ws
  induction ws with
  | nil => intro h; exact absurd rfl h
  | cons w tail ih =>
    intro _ hne
    cases tail with
    | nil => exact hne w (List.mem_cons_self _ _)
    | cons y rest =>
      intro hc
      rw [joinSep, str_eq_empty_iff, data_append, data_append] at hc
      have hw : w.data = [] := by
        cases hd : w.data with
        | nil => rfl
        | cons a l => rw [hd] at hc; simp at hc
      exact hne w (List.mem_cons_self _ _) (str_eq_empty_iff w |>.mpr hw)

theorem joinSep_append_nonempty (sep : String) :
    ∀ (ws1 ws2 : List String), ws1 ≠ [] → ws2 ≠ [] →
      joinSep sep (ws1 ++ ws2) = joinSep sep ws1 ++ sep ++ joinSep sep ws2 := by
  intro ws1
  induction ws1 with
  | nil => intro ws2 h; exact absurd rfl h
  | cons w tail ih =>
    intro ws2 _ hw2
    cases tail with
    | nil =>
      cases ws2 with
      | nil => exact absurd rfl hw2
      | cons y rest => rfl
    | cons y rest =>
      have hrec := ih ws2 (by simp) hw2
      show w ++ sep ++ joinSep sep ((y :: rest) ++ ws2) = _
      rw [hrec, joinSep, ← str_append_assoc, ← str_append_assoc]

theorem joinSep_combine (ws1 ws2 : List String)
    (h1 : ∀ w ∈ ws1, w ≠ "") (h2 : ∀ w ∈ ws2, w ≠ "") :
    joinSep " " ([joinSep " " ws1, joinSep " " ws2].filter (fun x => x != "")) =
      joinSep " " (ws1 ++ ws2) := by
  cases hw1 : ws1 with
  | nil =>
    cases hw2 : ws2 with
    | nil => rfl
    | cons y rest =>
      have hne : joinSep " " (y :: rest) ≠ "" :=
        joinSep_ne_empty " " (y :: rest) (by simp) (hw2 ▸ h2)
      have hfil : ([joinSep " " ([] : List String), joinSep " " (y :: rest)].filter
          (fun x => x != "")) = [joinSep " " (y :: rest)] := by
        rw [show joinSep " " ([] : List String) = "" from rfl]
        simp [hne]
      rw [hfil]
      rfl
  | cons x rest1 =>
    have hne1 : joinSep " " (x :: rest1) ≠ "" :=
      joinSep_ne_empty " " (x :: rest1) (by simp) (hw1 ▸ h1)
    cases hw2 : ws2 with
    | nil =>
      have hfil : ([joinSep " " (x :: rest1), joinSep " " ([] : List String)].filter
          (fun x => x != "")) = [joinSep " " (x :: rest1)] := by
        rw [show joinSep " " ([] : List String) = "" from rfl]
        simp [hne1]
      rw [hfil, List.append_nil]
      rfl
    | cons y rest2 =>
      have hne2 : joinSep " " (y :: rest2) ≠ "" :=
        joinSep_ne_empty " " (y :: rest2) (by simp) (hw2 ▸ h2)
      have hfil : ([joinSep " " (x :: rest1), joinSep " " (y :: rest2)].filter
          (fun x => x != "")) = [joinSep " " (x :: rest1), joinSep " " (y :: rest2)] := by
        simp [hne1, hne2]
      rw [hfil, joinSep_append_nonempty " " (x :: rest1) (y :: rest2) (by simp) (by simp)]
      rfl

/-! ## Round-trip: character classes -/

/-- Characters that pass unchanged through the tokenizer as buffer
content: not a double quote, not structural, not whitespace. -/
def plainChar (c : Char) : Bool :=
  !(c == '"') && !(c == '(') && !(c == ')') && !(c == '~') && !c.isWhitespace

/-- A word that survives tokenization as one token. -/
def plainWord (w : String) : Bool := !w.data.isEmpty && w.data.all plainChar

/-- A nonempty all-alphanumeric string. -/
def alnumStr (s : String) : Bool := !s.data.isEmpty && s.data.all Char.isAlphanum

/-- Leaf filters whose serialization is parsed back verbatim: alphanumeric
term, and either a field with an explicit ':' or '=' operator or no field
with the default ':' operator. -/
def safeLeaf (f : Filter) : Bool :=
  alnumStr f.term &&
    match f.field with
    | none => f.operator == ":"
    | some fld => alnumStr fld && (f.operator == ":" || f.operator == "=")

theorem alnum_facts (c : Char) (h : c.isAlphanum = true) :
    plainChar c = true ∧ wordChar c = true ∧ dotChar c = true ∧
      c ≠ '"' ∧ c ≠ '-' ∧ c ≠ ' ' ∧ c.isWhitespace = false := by
  have hws : c.isWhitespace = false := by
    by_contra hc
    simp only [Bool.not_eq_false, Char.isWhitespace, Bool.or_eq_true, beq_iff_eq,
      decide_eq_true_eq] at hc
    rcases hc with ((rfl | rfl) | rfl) | rfl <;> revert h <;> decide
  have hch : ∀ d : Char, d.isAlphanum = false → c ≠ d := by
    intro d hd hc
    rw [hc, hd] at h
    exact Bool.false_ne_true h
  have hq := hch '"' (by decide)
  have hp1 := hch '(' (by decide)
  have hp2 := hch ')' (by decide)
  have ht := hch '~' (by decide)
  have hm := hch '-' (by decide)
  have hsp := hch ' ' (by decide)
  have hnl := hch '\n' (by decide)
  have hcr := hch '\r' (by decide)
  have hu1 := hch '\u2028' (by decide)
  have hu2 := hch '\u2029' (by decide)
  refine ⟨?_, ?_, ?_, hq, hm, hsp, hws⟩
  · simp [plainChar, hq, hp1, hp2, ht, hws]
  · simp [wordChar, h]
  · simp [dotChar, hnl, hcr, hu1, hu2]

/-! ## Round-trip: tokenizer recovers plain words -/

theorem plainChar_spec (c : Char) (h : plainChar c = true) :
    c ≠ '"' ∧ c ≠ '(' ∧ c ≠ ')' ∧ c ≠ '~' ∧ c.isWhitespace = false ∧ c ≠ ' ' := by
  simp only [plainChar, Bool.and_eq_true, Bool.not_eq_true', beq_eq_false_iff_ne, ne_eq] at h
  obtain ⟨⟨⟨⟨hq, hp1⟩, hp2⟩, ht⟩, hws⟩ := h
  have hsp : c ≠ ' ' := by
    intro hc
    rw [hc] at hws
    exact absurd hws (by decide)
  exact ⟨hq, hp1, hp2, ht, hws, hsp⟩

theorem dropWhile_ws_self (m : List Char) (hm : ∀ c ∈ m, c.isWhitespace = false) :
    m.dropWhile Char.isWhitespace = m := by
  cases m with
  | nil => rfl
  | cons c t =>
    rw [List.dropWhile_cons, hm c (List.mem_cons_self c t)]
    simp

theorem trimList_plain (l : List Char) (h : ∀ c ∈ l, plainChar c = true) :
    trimList l = l := by
  have hnws : ∀ c ∈ l, c.isWhitespace = false := by
    intro c hc
    exact (plainChar_spec c (h c hc)).2.2.2.2.1
  have hnws2 : ∀ c ∈ l.reverse, c.isWhitespace = false := by
    intro c hc
    exact hnws c (List.mem_reverse.mp hc)
  unfold trimList
  rw [dropWhile_ws_self l hnws, dropWhile_ws_self l.reverse hnws2, List.reverse_reverse]

theorem emitBuffer_plain (w : List Char) (hne : w ≠ [])
    (h : ∀ c ∈ w, plainChar c = true) :
    emitBuffer w = [(⟨w⟩ : String)] := by
  unfold emitBuffer
  rw [trimList_plain w h]
  rw [if_neg (by simp [hne])]

theorem tokenizeAux_word :
    ∀ (w rest buffer : List Char), (∀ c ∈ w, plainChar c = true) →
      tokenizeAux (w ++ rest) buffer false = tokenizeAux rest (buffer ++ w) false := by
  intro w
  induction w with
  | nil =>
    intro rest buffer _
    rw [List.nil_append, List.append_nil]
  | cons c w2 ih =>
    intro rest buffer h
    obtain ⟨hq, hp1, hp2, ht, hws, hsp⟩ := plainChar_spec c (h c (List.mem_cons_self c w2))
    show tokenizeAux (c :: (w2 ++ rest)) buffer false = _
    rw [tokenizeAux]
    rw [if_neg hq]
    rw [if_neg (by simp [hp1, hp2, ht, hsp])]
    rw [ih rest (buffer ++ [c]) (fun x hx => h x (List.mem_cons_of_mem _ hx)),
      List.append_assoc]
    rfl

theorem tokenize_joinSep :
    ∀ ws : List String, (∀ w ∈ ws, plainWord w = true) →
      tokenize (joinSep " " ws) = ws := by
  intro ws
  induction ws with
  | nil => intro _; rfl
  | cons w tail ih =>
    intro h
    have hw : w.data ≠ [] ∧ ∀ c ∈ w.data, plainChar c = true := by
      have := h w (List.mem_cons_self w tail)
      simp only [plainWord, Bool.and_eq_true, Bool.not_eq_true', List.isEmpty_eq_false,
        List.all_eq_true, ne_eq] at this
      exact this
    cases tail with
    | nil =>
      show tokenizeAux (joinSep " " [w]).data [] false = [w]
      rw [show joinSep " " [w] = w from rfl]
      rw [show w.data = w.data ++ [] from (List.append_nil w.data).symm]
      rw [tokenizeAux_word w.data [] [] hw.2]
      show emitBuffer ([] ++ w.data) = [w]
      rw [List.nil_append, emitBuffer_plain w.data hw.1 hw.2]
    | cons y rest =>
      have hdata : (joinSep " " (w :: y :: rest)).data
          = w.data ++ ' ' :: (joinSep " " (y :: rest)).data := by
        show (w ++ " " ++ joinSep " " (y :: rest)).data = _
        rw [data_append, data_append, List.append_assoc]
        rfl
      show tokenizeAux (joinSep " " (w :: y :: rest)).data [] false = _
      rw [hdata, tokenizeAux_word w.data (' ' :: (joinSep " " (y :: rest)).data) [] hw.2]
      rw [tokenizeAux]
      rw [if_neg (by decide)]
      rw [if_pos (by simp)]
      rw [List.nil_append, emitBuffer_plain w.data hw.1 hw.2]
      rw [if_neg (by simp)]
      have htail := ih (fun x hx => h x (List.mem_cons_of_mem _ hx))
      show [w] ++ [] ++ tokenizeAux (joinSep " " (y :: rest)).data [] false = w :: y :: rest
      rw [List.append_nil]
      rw [show tokenizeAux (joinSep " " (y :: rest)).data [] false
        = tokenize (joinSep " " (y :: rest)) from rfl]
      rw [htail]
      rfl

/-! ## Round-trip: safe leaf serialization parses back -/

theorem contains_space_false :
    ∀ l : List Char, (∀ c ∈ l, c ≠ ' ') → containsSub [' '] l = false := by
  intro l
  induction l with
  | nil => intro _; rfl
  | cons c rest ih =>
    intro h
    have hc : (' ' == c) = false := by
      simp [(h c (List.mem_cons_self c rest)).symm]
    show (List.isPrefixOf [' '] (c :: rest) || containsSub [' '] rest) = false
    rw [ih (fun x hx => h x (List.mem_cons_of_mem _ hx))]
    simp [List.isPrefixOf, hc]

theorem dropWhile_all_nil (p : Char → Bool) :
    ∀ l : List Char, (∀ c ∈ l, p c = true) → l.dropWhile p = [] := by
  intro l
  induction l with
  | nil => intro _; rfl
  | cons c rest ih =>
    intro h
    rw [List.dropWhile_cons, h c (List.mem_cons_self c rest)]
    simp only [if_true]
    exact ih (fun x hx => h x (List.mem_cons_of_mem _ hx))

theorem takeWhile_all_self (p : Char → Bool) :
    ∀ l : List Char, (∀ c ∈ l, p c = true) → l.takeWhile p = l := by
  intro l
  induction l with
  | nil => intro _; rfl
  | cons c rest ih =>
    intro h
    rw [List.takeWhile_cons, h c (List.mem_cons_self c rest)]
    simp only [if_true]
    rw [ih (fun x hx => h x (List.mem_cons_of_mem _ hx))]

theorem alnumStr_spec (t : String) (h : alnumStr t = true) :
    t.data ≠ [] ∧ ∀ c ∈ t.data, Char.isAlphanum c = true := by
  simp only [alnumStr, Bool.and_eq_true, Bool.not_eq_true', List.isEmpty_eq_false,
    List.all_eq_true, ne_eq] at h
  exact h

theorem stripEnds_no_quotes (t : String) (h : ∀ c ∈ t.data, c ≠ '"') :
    stripEnds t = t := by
  have hlead : stripLead t.data = t.data := by
    unfold stripLead
    cases hd : t.data with
    | nil => rfl
    | cons c rest =>
      have hc : c ≠ '"' := h c (by rw [hd]; exact List.mem_cons_self c rest)
      rw [if_neg (by simp [hc])]
  have htrail : stripTrail t.data = t.data := by
    unfold stripTrail
    cases hl : t.data.getLast? with
    | none => rw [if_neg (by simp)]
    | some c =>
      have hc : c ≠ '"' := h c (List.mem_of_getLast?_eq_some hl)
      rw [if_neg (by simp [hc])]
  show (⟨stripTrail (stripLead t.data)⟩ : String) = t
  rw [hlead, htrail]

theorem toString_safe_eq (f : Filter) (h : safeLeaf f = true) :
    f.toString = (match f.field with
      | some fld => fld ++ f.operator
      | none => "") ++ f.term := by
  have hterm : alnumStr f.term = true := by
    simp only [safeLeaf, Bool.and_eq_true] at h
    exact h.1
  obtain ⟨hne, hal⟩ := alnumStr_spec f.term hterm
  have hplain : ∀ c ∈ f.term.data, plainChar c = true := by
    intro c hc
    exact (alnum_facts c (hal c hc)).1
  have htrim : jsTrim f.term = f.term := by
    show (⟨trimList f.term.data⟩ : String) = f.term
    rw [trimList_plain f.term.data hplain]
  have hsp : strIncludes (jsTrim f.term) " " = false := by
    rw [htrim]
    show containsSub [' '] f.term.data = false
    exact contains_space_false f.term.data
      (fun c hc => (alnum_facts c (hal c hc)).2.2.2.2.2.1)
  unfold Filter.toString
  rw [hsp]
  simp only [if_false, Bool.false_eq_true]

theorem parse_toString_safe (f : Filter) (h : safeLeaf f = true) :
    Filter.parse f.toString = f := by
  obtain ⟨field, term, op⟩ := f
  have hterm : alnumStr term = true := by
    simp only [safeLeaf, Bool.and_eq_true] at h
    exact h.1
  obtain ⟨htne, htal⟩ := alnumStr_spec term hterm
  rw [toString_safe_eq _ h]
  cases field with
  | none =>
    have hop : op = ":" := by
      simp only [safeLeaf, Bool.and_eq_true, beq_iff_eq] at h
      exact h.2
    subst hop
    have hshape : ((match (none : Option String) with
        | some fld => fld ++ ":"
        | none => "") ++ term) = term := by
      show "" ++ term = term
      cases term
      rfl
    rw [hshape]
    have hdw : term.data.dropWhile wordChar = [] :=
      dropWhile_all_nil wordChar term.data
        (fun c hc => (alnum_facts c (htal c hc)).2.1)
    have hfb : Filter.parseFallback term = Filter.mk none term ":" := by
      unfold Filter.parseFallback
      have hhead : headIs term '"' = false := by
        unfold headIs
        cases hd : term.data with
        | nil => rfl
        | cons c rest =>
          have hc : c ≠ '"' :=
            (alnum_facts c (htal c (by rw [hd]; exact List.mem_cons_self c rest))).2.2.2.1
          simp [hc]
      rw [if_neg (by simp [hhead])]
    simp only [Filter.parse, hdw]
    exact hfb
  | some fld =>
    have hfld : alnumStr fld = true := by
      simp only [safeLeaf, Bool.and_eq_true] at h
      exact h.2.1
    have hop : op = ":" ∨ op = "=" := by
      simp only [safeLeaf, Bool.and_eq_true, Bool.or_eq_true, beq_iff_eq] at h
      exact h.2.2
    obtain ⟨hfne, hfal⟩ := alnumStr_spec fld hfld
    have hstrip : stripEnds term = term :=
      stripEnds_no_quotes term (fun c hc => (alnum_facts c (htal c hc)).2.2.2.1)
    have hmain : ∀ opc : Char, (opc = ':' ∨ opc = '=') →
        Filter.parse (fld ++ String.singleton opc ++ term)
          = Filter.mk (some fld) term (String.singleton opc) := by
      intro opc hopc
      rw [parse_word_op_rest fld term opc hfne
        (fun c hc => (alnum_facts c (hfal c hc)).2.1) hopc htne
        (List.all_eq_true.mpr (fun c hc => (alnum_facts c (htal c hc)).2.2.1)), hstrip]
    rcases hop with rfl | rfl
    · have hshape : ((match (some fld : Option String) with
          | some fl => fl ++ ":"
          | none => "") ++ term) = fld ++ String.singleton ':' ++ term := rfl
      rw [hshape, hmain ':' (Or.inl rfl)]
      rfl
    · have hshape : ((match (some fld : Option String) with
          | some fl => fl ++ "="
          | none => "") ++ term) = fld ++ String.singleton '=' ++ term := rfl
      rw [hshape, hmain '=' (Or.inr rfl)]
      rfl

/-! ## Round-trip: flat trees -/

theorem empty_append_str (s : String) : "" ++ s = s := by
  cases s
  rfl

theorem renderList_leaves :
    ∀ (fs : List Filter) (w : Bool),
      renderList (fs.map FilterItem.leaf) w = fs.map Filter.toString := by
  intro fs
  induction fs with
  | nil => intro w; rfl
  | cons f rest ih =>
    intro w
    simp only [List.map_cons, renderList, itemMapper, ih]

theorem toString_safe_plainWord (f : Filter) (h : safeLeaf f = true) :
    plainWord f.toString = true ∧ headIs f.toString '-' = false := by
  have hterm : alnumStr f.term = true := by
    simp only [safeLeaf, Bool.and_eq_true] at h
    exact h.1
  obtain ⟨htne, htal⟩ := alnumStr_spec f.term hterm
  rw [toString_safe_eq f h]
  cases hf : f.field with
  | none =>
    rw [empty_append_str]
    constructor
    · simp only [plainWord, Bool.and_eq_true, Bool.not_eq_true', List.isEmpty_eq_false,
        ne_eq, List.all_eq_true]
      exact ⟨htne, fun c hc => (alnum_facts c (htal c hc)).1⟩
    · unfold headIs
      cases hd : f.term.data with
      | nil => rfl
      | cons c rest =>
        have := (alnum_facts c (htal c (by rw [hd]; exact List.mem_cons_self c rest))).2.2.2.2.1
        simp [this]
  | some fld =>
    have hfld : alnumStr fld = true := by
      simp only [safeLeaf, hf, Bool.and_eq_true] at h
      exact h.2.1
    have hop : f.operator = ":" ∨ f.operator = "=" := by
      simp only [safeLeaf, hf, Bool.and_eq_true, Bool.or_eq_true, beq_iff_eq] at h
      exact h.2.2
    obtain ⟨hfne, hfal⟩ := alnumStr_spec fld hfld
    have hopdata : f.operator.data = [':'] ∨ f.operator.data = ['='] := by
      rcases hop with hv | hv <;> rw [hv]
      · exact Or.inl rfl
      · exact Or.inr rfl
    have hdata : (fld ++ f.operator ++ f.term).data
        = fld.data ++ (f.operator.data ++ f.term.data) := by
      rw [data_append, data_append, List.append_assoc]
    constructor
    · simp only [plainWord, Bool.and_eq_true, Bool.not_eq_true', List.isEmpty_eq_false,
        ne_eq, List.all_eq_true, hdata]
      constructor
      · intro hc
        rw [List.append_eq_nil] at hc
        exact hfne hc.1
      · intro c hc
        rw [List.mem_append] at hc
        rcases hc with hc | hc
        · exact (alnum_facts c (hfal c hc)).1
        · rw [List.mem_append] at hc
          rcases hc with hc | hc
          · rcases hopdata with hod | hod <;> rw [hod] at hc <;> simp at hc <;>
              rw [hc] <;> decide
          · exact (alnum_facts c (htal c hc)).1
    · unfold headIs
      rw [hdata]
      cases hd : fld.data with
      | nil => exact absurd hd hfne
      | cons c rest =>
        have := (alnum_facts c (hfal c (by rw [hd]; exact List.mem_cons_self c rest))).2.2.2.2.1
        simp [this]

theorem excToken_facts (f : Filter) (h : safeLeaf f = true) :
    plainWord ("-" ++ f.toString) = true ∧ headIs ("-" ++ f.toString) '-' = true ∧
      strTail ("-" ++ f.toString) = f.toString := by
  have hdata : ("-" ++ f.toString).data = '-' :: f.toString.data := by
    rw [data_append]
    rfl
  have hw := (toString_safe_plainWord f h).1
  simp only [plainWord, Bool.and_eq_true, Bool.not_eq_true', List.isEmpty_eq_false,
    ne_eq, List.all_eq_true] at hw
  refine ⟨?_, ?_, ?_⟩
  · simp only [plainWord, Bool.and_eq_true, Bool.not_eq_true', List.isEmpty_eq_false,
      ne_eq, List.all_eq_true, hdata]
    constructor
    · simp
    · intro c hc
      rw [List.mem_cons] at hc
      rcases hc with rfl | hc
      · decide
      · exact hw.2 c hc
  · unfold headIs
    rw [hdata]
    rfl
  · unfold strTail
    rw [hdata]
    show (⟨f.toString.data⟩ : String) = f.toString
    rfl

theorem plainWord_ne_structural (w : String) (h : plainWord w = true) :
    w ≠ "(" ∧ w ≠ ")" ∧ w ≠ "~" ∧ w ≠ "" := by
  refine ⟨?_, ?_, ?_, ?_⟩ <;> intro hc <;> rw [hc] at h <;> exact absurd h (by decide)

theorem foldl_leafStep_inc (fs : List Filter) :
    ∀ (m : String) (i e : List FilterItem), (∀ f ∈ fs, safeLeaf f = true) →
      List.foldl leafStep (FilterGroup.mk m i e) (fs.map Filter.toString)
        = FilterGroup.mk m (i ++ fs.map FilterItem.leaf) e := by
  induction fs with
  | nil =>
    intro m i e _
    simp
  | cons f rest ih =>
    intro m i e h
    have hf := h f (List.mem_cons_self f rest)
    have hstep : leafStep (FilterGroup.mk m i e) f.toString
        = FilterGroup.mk m (i ++ [FilterItem.leaf f]) e := by
      simp only [leafStep, (toString_safe_plainWord f hf).2, Bool.false_eq_true, if_false,
        parse_toString_safe f hf, FilterGroup.add]
    rw [List.map_cons, List.foldl_cons, hstep,
      ih m (i ++ [FilterItem.leaf f]) e (fun x hx => h x (List.mem_cons_of_mem _ hx)),
      List.append_assoc]
    rfl

theorem foldl_leafStep_exc (fs : List Filter) :
    ∀ (m : String) (i e : List FilterItem), (∀ f ∈ fs, safeLeaf f = true) →
      List.foldl leafStep (FilterGroup.mk m i e) (fs.map (fun f => "-" ++ f.toString))
        = FilterGroup.mk m i (e ++ fs.map FilterItem.leaf) := by
  induction fs with
  | nil =>
    intro m i e _
    simp
  | cons f rest ih =>
    intro m i e h
    have hf := h f (List.mem_cons_self f rest)
    obtain ⟨hpw, hhead, htail⟩ := excToken_facts f hf
    have hstep : leafStep (FilterGroup.mk m i e) ("-" ++ f.toString)
        = FilterGroup.mk m i (e ++ [FilterItem.leaf f]) := by
      simp only [leafStep, hhead, if_true, htail, parse_toString_safe f hf, FilterGroup.add]
    rw [List.map_cons, List.foldl_cons, hstep,
      ih m i (e ++ [FilterItem.leaf f]) (fun x hx => h x (List.mem_cons_of_mem _ hx)),
      List.append_assoc]
    rfl

theorem parseQuery_toString_flat (incs excs : List Filter)
    (h1 : ∀ f ∈ incs, safeLeaf f = true) (h2 : ∀ f ∈ excs, safeLeaf f = true) :
    parseQuery ((FilterGroup.mk "AND" (incs.map FilterItem.leaf)
        (excs.map FilterItem.leaf)).toString)
      = FilterGroup.mk "AND" (incs.map FilterItem.leaf) (excs.map FilterItem.leaf) := by
  have hts : (FilterGroup.mk "AND" (incs.map FilterItem.leaf)
      (excs.map FilterItem.leaf)).toString
      = joinSep " " (incs.map Filter.toString ++ excs.map (fun f => "-" ++ f.toString)) := by
    show joinSep " "
      ([joinSep (if (("AND" : String) == "AND") = true then " " else "~")
          (renderList (incs.map FilterItem.leaf) (decide (1 < (incs.map FilterItem.leaf).length))),
        joinSep " " ((renderList (excs.map FilterItem.leaf)
          (decide (1 < (excs.map FilterItem.leaf).length))).map (fun s => "-" ++ s))].filter
        (fun s => s != "")) = _
    rw [if_pos (by simp), renderList_leaves, renderList_leaves, List.map_map]
    rw [show ((fun s => "-" ++ s) ∘ Filter.toString) = (fun f => "-" ++ Filter.toString f)
      from rfl]
    apply joinSep_combine
    · intro w hw
      rw [List.mem_map] at hw
      obtain ⟨f, hf, rfl⟩ := hw
      exact (plainWord_ne_structural _ (toString_safe_plainWord f (h1 f hf)).1).2.2.2
    · intro w hw
      rw [List.mem_map] at hw
      obtain ⟨f, hf, rfl⟩ := hw
      exact (plainWord_ne_structural _ (excToken_facts f (h2 f hf)).1).2.2.2
  have hplainAll : ∀ w ∈ incs.map Filter.toString ++ excs.map (fun f => "-" ++ f.toString),
      plainWord w = true := by
    intro w hw
    rw [List.mem_append] at hw
    rcases hw with hw | hw <;> rw [List.mem_map] at hw <;> obtain ⟨f, hf, rfl⟩ := hw
    · exact (toString_safe_plainWord f (h1 f hf)).1
    · exact (excToken_facts f (h2 f hf)).1
  unfold parseQuery
  rw [hts, tokenize_joinSep _ hplainAll]
  unfold parseTokens
  rw [parseLoop_no_brackets _ _ 0 (FilterGroup.mk "AND" [] []) "AND" (by omega)
    (by
      intro t ht
      rw [List.drop_zero] at ht
      have := plainWord_ne_structural t (hplainAll t ht)
      exact ⟨this.1, this.2.1⟩)]
  simp only [Option.getD_some, List.drop_zero]
  rw [if_neg (by
    intro hc
    exact (plainWord_ne_structural _ (hplainAll _ hc)).2.2.1 rfl)]
  rw [List.filter_eq_self.mpr (by
    intro a ha
    exact decide_eq_true ((plainWord_ne_structural a (hplainAll a ha)).2.2.1))]
  rw [List.foldl_append, foldl_leafStep_inc incs "AND" [] [] h1,
    foldl_leafStep_exc excs "AND" (([] : List FilterItem) ++ incs.map FilterItem.leaf) [] h2]
  rw [List.nil_append, List.nil_append]
  rfl

/-- C6 counterexample: the tree built by adding the subgroup (a AND b) to
the root's exclude list serializes to -a b, which re-parses as exclude a,
include b: on the record x:c the original tree matches (the excluded
subgroup does not match) but the reparsed tree does not (b is not
contained), so serialize-then-parse changes matchesEntry. -/
theorem roundtrip_counterexample :
    (FilterGroup.mk "AND" []
        [FilterItem.group (FilterGroup.mk "AND"
          [FilterItem.leaf (Filter.mk none "a" ":"),
           FilterItem.leaf (Filter.mk none "b" ":")] [])]).toString = "-a b"
    ∧ (parseQuery ((FilterGroup.mk "AND" []
        [FilterItem.group (FilterGroup.mk "AND"
          [FilterItem.leaf (Filter.mk none "a" ":"),
           FilterItem.leaf (Filter.mk none "b" ":")] [])]).toString)).matchesEntry
        [("x", Value.str "c")] = false
    ∧ (FilterGroup.mk "AND" []
        [FilterItem.group (FilterGroup.mk "AND"
          [FilterItem.leaf (Filter.mk none "a" ":"),
           FilterItem.leaf (Filter.mk none "b" ":")] [])]).matchesEntry
        [("x", Value.str "c")] = true := by
  exact ⟨rfl, rfl, rfl⟩

/-- C6 (amended): for flat trees built purely by add from leaf filters
with nonempty alphanumeric terms (and nonempty alphanumeric fields with
operator ':' or '='; fieldless leaves with the default ':'), serializing
and re-parsing reconstructs the very same tree, so matchesEntry agrees on
every record; a filter group in an exclude list breaks the round trip. -/
theorem roundtrip_safe_flat (incs excs : List Filter)
    (h1 : ∀ f ∈ incs, safeLeaf f = true) (h2 : ∀ f ∈ excs, safeLeaf f = true)
    (e : Entry) :
    (parseQuery ((FilterGroup.mk "AND" (incs.map FilterItem.leaf)
        (excs.map FilterItem.leaf)).toString)).matchesEntry e
      = (FilterGroup.mk "AND" (incs.map FilterItem.leaf)
          (excs.map FilterItem.leaf)).matchesEntry e := by
  rw [parseQuery_toString_flat incs excs h1 h2]

/-- Witness for roundtrip_safe_flat on a two-leaf tree and a concrete
record. -/
theorem roundtrip_safe_flat_witness :
    ((∀ f ∈ [Filter.mk (some "somefield") "hello" "="], safeLeaf f = true) ∧
      (∀ f ∈ [Filter.mk none "bad" ":"], safeLeaf f = true)) ∧
      (parseQuery ((FilterGroup.mk "AND"
          ([Filter.mk (some "somefield") "hello" "="].map FilterItem.leaf)
          ([Filter.mk none "bad" ":"].map FilterItem.leaf)).toString)).matchesEntry
          [("somefield", Value.str "Hello")]
        = (FilterGroup.mk "AND"
            ([Filter.mk (some "somefield") "hello" "="].map FilterItem.leaf)
            ([Filter.mk none "bad" ":"].map FilterItem.leaf)).matchesEntry
            [("somefield", Value.str "Hello")] :=
  ⟨⟨by decide, by decide⟩,
    roundtrip_safe_flat [Filter.mk (some "somefield") "hello" "="]
      [Filter.mk none "bad" ":"] (by decide) (by decide)
      [("somefield", Value.str "Hello")]⟩

end SQP
